import Mathlib

/-! Verification of the EasyEDA → KiCad conversion pipeline (`kicad_jlcimport`).

A shallow embedding of the geometry-conversion and serialization code of the
`kicad_jlcimport` repository, together with proofs about it.

Modelling conventions:
* Python `str` values are modelled as `List Char` (`Str` below).
* Python `float` values are modelled as exact rationals (`ℚ`); every numeric
  constant appearing in the verified properties is exactly representable, and
  the arithmetic performed on it (`/ 2`, `/ 100`, comparisons) is exact in
  both IEEE doubles and `ℚ`, so the two semantics agree on these properties.
* Python `int` values are modelled as `ℤ` (they are arbitrary precision).
* Fallible operations are modelled with `Option`; the embedded functions are
  total, so "no exception is raised" is reflected by the types.
-/

namespace JLC

/-- Python strings are modelled as lists of characters. -/
abbrev Str := List Char

/-! ## `sexpr.py` — the S-expression builder

`SExpr` has a `name` and an ordered list of items, each item being a string,
a float, an int, or a nested `SExpr` (`sexpr.py`, lines 5–22). -/

mutual
/-- Embedding of `class SExpr` from `sexpr.py`: a node with a name and ordered items. -/
inductive SExpr : Type where
  | mk (name : Str) (items : List SItem)

/-- One entry of `SExpr.items`: `Union[str, float, int, SExpr]`. -/
inductive SItem : Type where
  | str (s : Str)
  | flt (q : ℚ)
  | int (n : ℤ)
  | sub (e : SExpr)
end

/-- Name of an `SExpr` node. -/
def SExpr.name : SExpr → Str
  | .mk n _ => n

/-- Items of an `SExpr` node. -/
def SExpr.items : SExpr → List SItem
  | .mk _ its => its

/-- Decimal digit character for a digit value `0 ≤ d ≤ 9`. -/
def digitChar : Nat → Char
  | 0 => '0' | 1 => '1' | 2 => '2' | 3 => '3' | 4 => '4'
  | 5 => '5' | 6 => '6' | 7 => '7' | 8 => '8' | _ => '9'

/-- Decimal digits of a natural number (fuel-based so that it is structural;
`natDigits` below always supplies enough fuel). -/
def natDigitsAux : Nat → Nat → Str
  | 0, _ => []
  | fuel + 1, n =>
    if n < 10 then [digitChar n]
    else natDigitsAux fuel (n / 10) ++ [digitChar (n % 10)]

/-- Decimal representation of a natural number, as Python's `str` produces it. -/
def natDigits (n : Nat) : Str := natDigitsAux (n + 1) n

/-- Decimal representation of an integer, as Python's `str` produces it
(used for `str(int(value))` in `_format_float` and `str(item)` for int items). -/
def intRepr (n : ℤ) : Str :=
  if n < 0 then '-' :: natDigits n.natAbs else natDigits n.natAbs

/-- Round to the nearest integer, ties to even: the rounding used by Python's
fixed-precision float formatting (the doubles involved are exact, so `%.6f`
rounds the true value). -/
def roundHalfEven (x : ℚ) : ℤ :=
  let f := ⌊x⌋
  let r := x - f
  if r < 1 / 2 then f
  else if 1 / 2 < r then f + 1
  else if Even f then f else f + 1

/-- Python `f"{value:.6f}"`: the value rounded to six decimal places, printed
with an integer part, a point, and exactly six fraction digits, with a leading
minus sign for negative values. -/
def fixed6 (v : ℚ) : Str :=
  let n := roundHalfEven (v * 1000000)
  let a := n.natAbs
  let ip := a / 1000000
  let fp := a % 1000000
  let fd := natDigits fp
  (if v < 0 then ['-'] else []) ++ natDigits ip ++
    '.' :: (List.replicate (6 - fd.length) '0' ++ fd)

/-- Python `s.rstrip(c)` for a single strip character: remove every trailing
occurrence of `c`. -/
def stripTrailing (c : Char) (s : Str) : Str :=
  (s.reverse.dropWhile (· == c)).reverse

/-- Embedding of `_format_float` from `sexpr.py` (lines 61–66): integral values of
magnitude below `1e10` print as plain integers; otherwise the value is
formatted with six decimal places and trailing zeros, then a trailing point,
are stripped. A rational is integral exactly when its denominator is 1. -/
def _format_float (v : ℚ) : Str :=
  if v.den = 1 ∧ |v| < 10000000000 then intRepr v.num
  else stripTrailing '.' (stripTrailing '0' (fixed6 v))

/-- The characters `' \t\n"()'` scanned by `_quote_if_needed`. -/
def quoteTriggers : Str := [' ', '\t', '\n', '"', '(', ')']

/-- The codepoint ranges on which Python's `str.isdigit` is true: every
character whose Unicode `Numeric_Type` is `Decimal` or `Digit` (this covers
much more than ASCII `0`–`9`: superscripts such as `²`, fullwidth digits such
as `１`, and the decimal digits of the other scripts).  The ranges are taken
from the Unicode tables that CPython itself uses for `str.isdigit`. -/
def pyDigitRanges : List (Nat × Nat) := [
  (48, 57), (178, 179), (185, 185), (1632, 1641), (1776, 1785), (1984,
  1993), (2406, 2415), (2534, 2543), (2662, 2671), (2790, 2799), (2918,
  2927), (3046, 3055), (3174, 3183), (3302, 3311), (3430, 3439), (3558,
  3567), (3664, 3673), (3792, 3801), (3872, 3881), (4160, 4169), (4240,
  4249), (4969, 4977), (6112, 6121), (6160, 6169), (6470, 6479), (6608,
  6618), (6784, 6793), (6800, 6809), (6992, 7001), (7088, 7097), (7232,
  7241), (7248, 7257), (8304, 8304), (8308, 8313), (8320, 8329), (9312,
  9320), (9332, 9340), (9352, 9360), (9450, 9450), (9461, 9469), (9471,
  9471), (10102, 10110), (10112, 10120), (10122, 10130), (42528, 42537),
  (43216, 43225), (43264, 43273), (43472, 43481), (43504, 43513), (43600,
  43609), (44016, 44025), (65296, 65305), (66720, 66729), (68160, 68163),
  (68912, 68921), (69216, 69224), (69714, 69722), (69734, 69743), (69872,
  69881), (69942, 69951), (70096, 70105), (70384, 70393), (70736, 70745),
  (70864, 70873), (71248, 71257), (71360, 71369), (71472, 71481), (71904,
  71913), (72016, 72025), (72784, 72793), (73040, 73049), (73120, 73129),
  (92768, 92777), (92864, 92873), (93008, 93017), (120782, 120831), (123200,
  123209), (123632, 123641), (125264, 125273), (127232, 127242), (130032,
  130041)]

/-- Python's `s[0].isdigit()` for one character: Unicode-wide, per
`pyDigitRanges`. -/
def pyIsDigit (c : Char) : Bool :=
  pyDigitRanges.any (fun r => r.1 ≤ c.toNat && c.toNat ≤ r.2)

/-- Embedding of `_quote_if_needed` from `sexpr.py` (lines 69–76): the empty string renders
as `""`; a string containing one of `' \t\n"()'` or starting with a digit
(Python's Unicode-wide `isdigit`) is wrapped in quotes; anything else is
emitted verbatim. -/
def _quote_if_needed (s : Str) : Str :=
  match s with
  | [] => ['"', '"']
  | c :: cs =>
    if (c :: cs).any (fun x => x ∈ quoteTriggers) || pyIsDigit c then
      '"' :: s ++ ['"']
    else s

/-- Python `"  " * n`: the indentation prefix used by `SExpr.render`. -/
def indentStr (n : Nat) : Str := List.replicate (2 * n) ' '

/-- Python `" ".join(parts)`. -/
def joinSpace : List Str → Str
  | [] => []
  | [s] => s
  | s :: s' :: rest => s ++ ' ' :: joinSpace (s' :: rest)

/-- The block-children lines of `SExpr.render` (lines 50–53): each child on
its own line, prefixed by `pre` and terminated by a newline. -/
def blockLines (pre : Str) : List Str → Str
  | [] => []
  | b :: bs => pre ++ b ++ '\n' :: blockLines pre bs

mutual
/-- Embedding of `SExpr.render` from `sexpr.py` (lines 24–58).  Items are partitioned into
inline entries and block children; the name and the inline entries are put on
one line; block children, if any, each go on their own indented line. -/
def render : SExpr → Nat → Str
  | .mk name items, indent =>
    let ps := partitionItems items indent
    let withInline :=
      if ps.1 = [] then '(' :: name
      else '(' :: name ++ ' ' :: joinSpace ps.1
    if ps.2 = [] then withInline ++ [')']
    else
      withInline ++ '\n' ::
        blockLines (indentStr (indent + 1)) ps.2 ++ indentStr indent ++ [')']
termination_by structural e _ => e

/-- The loop of `SExpr.render` over `self.items` (`sexpr.py`, lines 30–44):
returns `(inline_items, block_children)`.  A child node is a block child when
its own rendering (at `indent + 1`) contains a line break or exceeds 80
characters; every scalar is an inline entry. -/
def partitionItems : List SItem → Nat → List Str × List Str
  | [], _ => ([], [])
  | it :: rest, indent =>
    let ps := partitionItems rest indent
    match it with
    | .sub e =>
      let r := render e (indent + 1)
      if '\n' ∈ r ∨ 80 < r.length then (ps.1, r :: ps.2) else (r :: ps.1, ps.2)
    | .flt q => (_format_float q :: ps.1, ps.2)
    | .int n => (intRepr n :: ps.1, ps.2)
    | .str s => (_quote_if_needed s :: ps.1, ps.2)
termination_by structural l _ => l
end

/-- The text that one item contributes when rendered at indent `j`
(for child nodes, `j` is the child's own indent, i.e. parent indent + 1). -/
def renderedItem : SItem → Nat → Str
  | .sub e, j => render e j
  | .flt q, _ => _format_float q
  | .int n, _ => intRepr n
  | .str s, _ => _quote_if_needed s

/-- Whether an item is rendered as a block child when the child renders at
indent `j`: only a nested node whose rendering contains a line break or
exceeds 80 characters. -/
def isBlockItem : SItem → Nat → Bool
  | .sub e, j =>
    let r := render e j
    decide ('\n' ∈ r) || decide (80 < r.length)
  | _, _ => false

/-- The items of a node rendered at indent `i`, listed in the textual order
`SExpr.render` emits them: inline entries first, then block children, each
group in insertion order. -/
def reorderItems (items : List SItem) (i : Nat) : List SItem :=
  items.filter (fun it => !isBlockItem it (i + 1)) ++
    items.filter (fun it => isBlockItem it (i + 1))

/-- The inline entry strings of `partitionItems`, described by filter/map. -/
def inlineStrs (items : List SItem) (i : Nat) : List Str :=
  (items.filter (fun it => !isBlockItem it (i + 1))).map
    (fun it => renderedItem it (i + 1))

/-- The block child strings of `partitionItems`, described by filter/map. -/
def blockStrs (items : List SItem) (i : Nat) : List Str :=
  (items.filter (fun it => isBlockItem it (i + 1))).map
    (fun it => renderedItem it (i + 1))

/-! ## Substring search (used to state header-content properties) -/

/-- Whether `p` is an initial segment of `s`. -/
def startsWith : Str → Str → Bool
  | [], _ => true
  | _ :: _, [] => false
  | p :: ps, c :: cs => p == c && startsWith ps cs

/-- Whether `pat` occurs contiguously anywhere in `s`. -/
def hasSubstr (pat : Str) : Str → Bool
  | [] => startsWith pat []
  | c :: cs => startsWith pat (c :: cs) || hasSubstr pat cs

/-! ## `kicad/version.py` helpers and the symbol-library header

`_export_only` (`src/kicad_jlcimport/importer.py`, lines 282–287) builds the
`.kicad_sym` library text around the symbol content. -/

/-- Modelled from the spec: `symbol_format_version` lives in
`kicad/version.py`, which is not part of the provided source tree; the spec
requires a table-driven, version-conditional header and the test
`test_cli_import_with_kicad_v8` pins the KiCad 8 value to `20231120`.  The
KiCad 9 value is some other constant; its exact digits play no role in any
verified property. -/
def symbol_format_version (kicad_version : Nat) : Nat :=
  if kicad_version ≤ 8 then 20231120 else 20241209

/-- Modelled from the spec: `has_generator_version` lives in
`kicad/version.py`, which is not part of the provided source tree; per the
spec and `test_cli_import_with_kicad_v8`, the `generator_version` header field
is present for KiCad 9 and absent for KiCad 8. -/
def has_generator_version (kicad_version : Nat) : Bool :=
  9 ≤ kicad_version

/-- The header part of the symbol library text built by `_export_only`
(`importer.py`, lines 282–286): everything before the symbol content. -/
def symLibHeader (kicad_version : Nat) : Str :=
  "(kicad_symbol_lib\n".data ++
    "  (version ".data ++ natDigits (symbol_format_version kicad_version) ++ ")\n".data ++
    "  (generator \"JLCImport\")\n".data ++
    (if has_generator_version kicad_version then
      "  (generator_version \"1.0\")\n".data
    else [])

/-- The full symbol library text built by `_export_only`
(`importer.py`, lines 282–287): header, symbol content, closing paren. -/
def buildSymbolLib (kicad_version : Nat) (sym_content : Str) : Str :=
  symLibHeader kicad_version ++ sym_content ++ ")\n".data

/-! ## `kicad/model3d.py` — the 3D placement calculator -/

/-- Embedding of `Model3DRef` (spec §3): the declared 3D-model reference carried by a
footprint — `uuid`, declared origin and `z` (vendor hundredths of a
millimeter), optional embedded rotation. -/
structure Model3DRef where
  uuid : Str
  origin_x : ℚ
  origin_y : ℚ
  z : ℚ
  rotation : Option (ℚ × ℚ × ℚ)

/-- The z-offset heuristic applied to the bounding box of the raw vertex
geometry (`tools/test_zoffset_change.py`, lines 42–45): if `z_max < |z_min|`
the model extends mostly below the plane and the offset is `z_max`;
otherwise it extends mostly above and the offset is `-z_min / 2`. -/
def zOffsetHeuristic (z_min z_max : ℚ) : ℚ :=
  if z_max < |z_min| then z_max else -z_min / 2

/-- The z extremes of a nonempty vertex list: `(z_min, z_max)` of the
axis-aligned bounding box. -/
def zBounds (v : ℚ × ℚ × ℚ) (vs : List (ℚ × ℚ × ℚ)) : ℚ × ℚ :=
  ((vs.map (fun p => p.2.2)).foldl min v.2.2,
   (vs.map (fun p => p.2.2)).foldl max v.2.2)

/-- Modelled from the spec: `compute_model_transform` lives in
`kicad/model3d.py`, which is not part of the provided source tree; this
follows spec §4.4 (corroborated by `tools/analyze_zoffsets.py` and
`tools/test_zoffset_change.py`).  Without raw vertex geometry the declared
offset `model.z / 100` is used; with geometry, the bounding-box z-heuristic.
In both branches `offset.x = offset.y = 0` and the rotation is the declared
one, defaulting to `(0, 0, 0)`. -/
def compute_model_transform (model : Model3DRef) (fp_origin_x fp_origin_y : ℚ)
    (obj_vertices : Option (List (ℚ × ℚ × ℚ))) : (ℚ × ℚ × ℚ) × (ℚ × ℚ × ℚ) :=
  let rotation := model.rotation.getD (0, 0, 0)
  match obj_vertices with
  | none => ((0, 0, model.z / 100), rotation)
  | some [] => ((0, 0, model.z / 100), rotation)
  | some (v :: vs) =>
    let zb := zBounds v vs
    ((0, 0, zOffsetHeuristic zb.1 zb.2), rotation)

/-! ## `easyeda/parser.py` — permissive shape-record parsing -/

/-- Python `s.split("~")`: split on the tilde delimiter, keeping empty
fields. -/
def splitTilde : Str → List Str
  | [] => [[]]
  | c :: cs =>
    let r := splitTilde cs
    if c = '~' then [] :: r
    else
      match r with
      | [] => [[c]]
      | h :: t => (c :: h) :: t

/-- Embedding of `ShapeRecord` (spec §3): the tagged union of primitive shape records.
Each variant keeps its raw positional fields. -/
inductive ShapeRecord where
  | pad (fields : List Str)
  | track (fields : List Str)
  | arc (fields : List Str)
  | circle (fields : List Str)
  | rect (fields : List Str)
  | text (fields : List Str)
  | svgnode (fields : List Str)
  | polyline (fields : List Str)
  deriving DecidableEq

/-- Modelled from the spec: the per-tag field schema of `easyeda/parser.py`,
which is not part of the provided source tree.  Spec §4.1 specifies a fixed
{tag → field schema} table; the exact counts are representative (any fixed
table satisfies the verified properties).  `SVGNODE` carries an embedded JSON
payload rather than positional fields and is never rejected for its field
count. -/
def parseRecord (s : Str) : Option ShapeRecord :=
  match splitTilde s with
  | [] => none
  | tag :: fields =>
    if tag = "PAD".data then
      if fields.length = 12 then some (.pad fields) else none
    else if tag = "TRACK".data then
      if fields.length = 5 then some (.track fields) else none
    else if tag = "ARC".data then
      if fields.length = 5 then some (.arc fields) else none
    else if tag = "CIRCLE".data then
      if fields.length = 6 then some (.circle fields) else none
    else if tag = "RECT".data then
      if fields.length = 7 then some (.rect fields) else none
    else if tag = "TEXT".data then
      if fields.length = 11 then some (.text fields) else none
    else if tag = "SVGNODE".data then
      some (.svgnode fields)
    else if tag = "POLYLINE".data then
      if fields.length = 4 then some (.polyline fields) else none
    else none

/-- The aggregate result of parsing a list of shape strings: the successfully
parsed records in order, and the number of dropped records. -/
structure ParsedShapes where
  records : List ShapeRecord
  dropped : Nat

/-- Modelled from the spec: the record loop of `parse_footprint_shapes` /
`parse_symbol_shapes` in `easyeda/parser.py` (not in the provided source
tree).  Per spec §4.1 the parse is permissive: each unparseable record is
dropped with no error raised, and the aggregate reflects only successfully
parsed records.  Totality of this function is the model of "no exception". -/
def parseShapes (shapes : List Str) : ParsedShapes :=
  { records := shapes.filterMap parseRecord
    dropped := (shapes.filter (fun s => (parseRecord s).isNone)).length }

/-! ## A re-parser for rendered S-expression text

The repository emits S-expression text but contains no S-expression reader
(its debug viewer uses regular expressions), so the re-parser against which
the round-trip property is stated is modelled from the spec. -/

/-- Whitespace for the S-expression grammar: the characters `SExpr.render`
itself uses as layout (space, tab, newline). -/
def isWS (c : Char) : Bool := c == ' ' || c == '\t' || c == '\n'

/-- A character that can appear in a bare (unquoted) token: anything except
layout whitespace, parentheses, and the quote character. -/
def bareChar (c : Char) : Bool :=
  !isWS c && c != '(' && c != ')' && c != '"'

/-- Tokens of the S-expression grammar. -/
inductive Tok where
  | l
  | r
  | atom (s : Str)

/-- Tokenizer state: between tokens, inside a bare token, or inside a quoted
string (accumulating its content). -/
inductive TokMode where
  | norm
  | bare (acc : Str)
  | quot (acc : Str)

/-- Modelled from the spec: a whitespace-insensitive tokenizer for the
emitted grammar, processing one character at a time.  A quoted string's
content is taken verbatim up to the closing quote (the emitter writes no
escape sequences); an unterminated quote is a failure. -/
def tokRun : Str → TokMode → List Tok → Option (List Tok)
  | [], .norm, out => some out
  | [], .bare acc, out => some (out ++ [.atom acc])
  | [], .quot _, _ => none
  | c :: cs, .norm, out =>
    if isWS c then tokRun cs .norm out
    else if c = '(' then tokRun cs .norm (out ++ [.l])
    else if c = ')' then tokRun cs .norm (out ++ [.r])
    else if c = '"' then tokRun cs (.quot []) out
    else tokRun cs (.bare [c]) out
  | c :: cs, .bare acc, out =>
    if isWS c then tokRun cs .norm (out ++ [.atom acc])
    else if c = '(' then tokRun cs .norm (out ++ [.atom acc, .l])
    else if c = ')' then tokRun cs .norm (out ++ [.atom acc, .r])
    else if c = '"' then tokRun cs (.quot []) (out ++ [.atom acc])
    else tokRun cs (.bare (acc ++ [c])) out
  | c :: cs, .quot acc, out =>
    if c = '"' then tokRun cs .norm (out ++ [.atom acc])
    else tokRun cs (.quot (acc ++ [c])) out

/-- A partially built node during parsing: its name (`none` only for the
virtual root frame) and the items collected so far. -/
abbrev Frame := Option Str × List SItem

/-- Modelled from the spec: one shift-reduce step of the S-expression reader.
`(` opens a frame; the first atom in a fresh frame is its name; further atoms
are string items (textual atoms carry no type information); `)` closes the
top frame into its parent. -/
def stepTok (st : List Frame) : Tok → Option (List Frame)
  | .l => some ((none, []) :: st)
  | .atom s =>
    match st with
    | (none, []) :: st' => some ((some s, []) :: st')
    | (some n, items) :: st' => some ((some n, items ++ [.str s]) :: st')
    | _ => none
  | .r =>
    match st with
    | (some n, items) :: (pn, pitems) :: rest =>
      some ((pn, pitems ++ [.sub (.mk n items)]) :: rest)
    | _ => none

/-- Run the shift-reduce reader over a token list. -/
def runToks : List Tok → List Frame → Option (List Frame)
  | [], st => some st
  | t :: ts, st =>
    match stepTok st t with
    | some st' => runToks ts st'
    | none => none

/-- Modelled from the spec: parse a complete rendered S-expression into a
tree (all scalars come back as string items). -/
def parseTop (s : Str) : Option SExpr :=
  match tokRun s .norm [] with
  | none => none
  | some ts =>
    match runToks ts [(none, [])] with
    | some [(none, [.sub t])] => some t
    | _ => none

/-! ## Well-formedness and the expected parse of rendered text -/

mutual
/-- Trees whose rendering round-trips: every node name is a nonempty bare
token and no string scalar contains the quote character (the emitter writes
no escape sequences). -/
def wfTree : SExpr → Bool
  | .mk name items => !name.isEmpty && name.all bareChar && wfItems items
termination_by structural e => e

/-- Item-list side of `wfTree`. -/
def wfItems : List SItem → Bool
  | [] => true
  | .str s :: rest => s.all (· != '"') && wfItems rest
  | .sub e :: rest => wfTree e && wfItems rest
  | .flt _ :: rest => wfItems rest
  | .int _ :: rest => wfItems rest
termination_by structural l => l
end

mutual
/-- The tree a correct reader recovers from `render e i`: scalars become
their formatted atom strings, and each node's items appear in emitted
textual order — inline entries first, then block children. -/
def strip : SExpr → Nat → SExpr
  | .mk name items, i =>
    let ps := stripPartition items i
    .mk name (ps.1 ++ ps.2)
termination_by structural e _ => e

/-- Item-list side of `strip`: `(inline entries, block children)` after
scalar formatting, classified exactly as `partitionItems` classifies them. -/
def stripPartition : List SItem → Nat → List SItem × List SItem
  | [], _ => ([], [])
  | it :: rest, i =>
    let ps := stripPartition rest i
    match it with
    | .sub e =>
      if isBlockItem (.sub e) (i + 1) then (ps.1, .sub (strip e (i + 1)) :: ps.2)
      else (.sub (strip e (i + 1)) :: ps.1, ps.2)
    | .str s => (.str s :: ps.1, ps.2)
    | .flt q => (.str (_format_float q) :: ps.1, ps.2)
    | .int n => (.str (intRepr n) :: ps.1, ps.2)
termination_by structural l _ => l
end

mutual
/-- The token stream of `render e i` (proof-side description). -/
def toks : SExpr → Nat → List Tok
  | .mk name items, i =>
    .l :: .atom name :: (inlineToks items i ++ blockToks items i) ++ [.r]
termination_by structural e _ => e

/-- Tokens contributed by the inline entries of an item list. -/
def inlineToks : List SItem → Nat → List Tok
  | [], _ => []
  | .sub e :: rest, i =>
    (if isBlockItem (.sub e) (i + 1) then [] else toks e (i + 1)) ++ inlineToks rest i
  | .str s :: rest, i => .atom s :: inlineToks rest i
  | .flt q :: rest, i => .atom (_format_float q) :: inlineToks rest i
  | .int n :: rest, i => .atom (intRepr n) :: inlineToks rest i
termination_by structural l _ => l

/-- Tokens contributed by the block children of an item list. -/
def blockToks : List SItem → Nat → List Tok
  | [], _ => []
  | .sub e :: rest, i =>
    (if isBlockItem (.sub e) (i + 1) then toks e (i + 1) else []) ++ blockToks rest i
  | .str _ :: rest, i => blockToks rest i
  | .flt _ :: rest, i => blockToks rest i
  | .int _ :: rest, i => blockToks rest i
termination_by structural l _ => l
end

/-! ## Basic character-set lemmas about the scalar formatters -/

theorem digitChar_isDigit (d : Nat) : (digitChar d).isDigit = true := by
  match d with
  | 0 | 1 | 2 | 3 | 4 | 5 | 6 | 7 | 8 => rfl
  | n + 9 => rfl

theorem natDigitsAux_digits {f n : Nat} {c : Char} (h : c ∈ natDigitsAux f n) :
    c.isDigit = true := by
  induction f generalizing n with
  | zero => simp [natDigitsAux] at h
  | succ f ih =>
    rw [natDigitsAux] at h
    split at h
    · rw [List.mem_singleton] at h
      subst h
      exact digitChar_isDigit n
    · rcases List.mem_append.mp h with h | h
      · exact ih h
      · rw [List.mem_singleton] at h
        subst h
        exact digitChar_isDigit (n % 10)

theorem natDigits_digits {n : Nat} {c : Char} (h : c ∈ natDigits n) :
    c.isDigit = true := natDigitsAux_digits h

theorem natDigits_ne_nil (n : Nat) : natDigits n ≠ [] := by
  rw [natDigits, natDigitsAux]
  split
  · simp
  · simp

theorem intRepr_chars {n : ℤ} {c : Char} (h : c ∈ intRepr n) :
    c = '-' ∨ c.isDigit = true := by
  rw [intRepr] at h
  split at h
  · rw [List.mem_cons] at h
    rcases h with h | h
    · exact Or.inl h
    · exact Or.inr (natDigits_digits h)
  · exact Or.inr (natDigits_digits h)

theorem intRepr_ne_nil (n : ℤ) : intRepr n ≠ [] := by
  rw [intRepr]
  split
  · simp
  · exact natDigits_ne_nil _

theorem isDigit_ne (c : Char) (h : c.isDigit = true) :
    c ≠ '.' ∧ c ≠ '-' ∧ c ≠ '\n' ∧ bareChar c = true := by
  have ne : ∀ x : Char, x.isDigit = false → c ≠ x := by
    intro x hx hc
    rw [hc, hx] at h
    cases h
  refine ⟨ne '.' (by decide), ne '-' (by decide), ne '\n' (by decide), ?_⟩
  rw [bareChar, isWS]
  simp [beq_eq_false_iff_ne.mpr (ne ' ' (by decide)),
    beq_eq_false_iff_ne.mpr (ne '\t' (by decide)),
    beq_eq_false_iff_ne.mpr (ne '\n' (by decide)),
    bne_iff_ne.mpr (ne '(' (by decide)),
    bne_iff_ne.mpr (ne ')' (by decide)),
    bne_iff_ne.mpr (ne '"' (by decide))]

/-! ## Claim C5 — version-conditional symbol-library header -/

/-- C5: emitting the symbol library for KiCad 8 omits the
`generator_version` field that is present for KiCad 9, and uses the KiCad 8
format version number `20231120`; the emitted text is always header, then
content, then the closing paren. -/
theorem c5_version_conditional_header :
    (∀ c : Str, buildSymbolLib 8 c = symLibHeader 8 ++ c ++ ")\n".data) ∧
    hasSubstr "generator_version".data (symLibHeader 8) = false ∧
    hasSubstr "(version 20231120)".data (symLibHeader 8) = true ∧
    hasSubstr "generator_version".data (symLibHeader 9) = true :=
  ⟨fun _ => rfl, by decide, by decide, by decide⟩

/-! ## Claims C1, C2, C8 — the 3D placement calculator -/

/-- C1 (counterexample): for a vertex geometry with bounding box
`z_min = -3.400`, `z_max = 7.600`, the calculator returns
`offset.z = 1.700` (`= -z_min / 2`, the "extends above" branch, since
`7.600 < |-3.400|` is false), not `7.600` as the claim's example states. -/
theorem c1_counterexample :
    (compute_model_transform ⟨[], 0, 0, 0, none⟩ 0 0
        (some [(0, 0, -17/5), (0, 0, 38/5)])).1.2.2 = 17/10 ∧
    (17/10 : ℚ) ≠ 38/5 := by
  constructor
  · have h1 : min ((-17 : ℚ)/5) (38/5) = -17/5 := min_eq_left (by norm_num)
    have h2 : max ((-17 : ℚ)/5) (38/5) = 38/5 := max_eq_right (by norm_num)
    have h3 : |(-17 : ℚ)/5| = 17/5 := by
      rw [abs_of_nonpos] <;> norm_num
    simp only [compute_model_transform, zBounds, zOffsetHeuristic, List.map,
      List.foldl, h1, h2, h3]
    norm_num
  · norm_num

/-- C1 (amended): with raw vertex geometry available, the calculator chooses
`offset.z` by the rule `if z_max < |z_min| then z_max else -z_min / 2` over
the geometry's bounding box; at `z_min = -3.400, z_max = 7.600` this yields
`1.700`, and at `z_min = -5.975, z_max = 2.285` it yields `2.285` (the
spec's two worked examples exchanged the branch results). -/
theorem c1_zoffset_heuristic :
    (∀ (m : Model3DRef) (fx fy : ℚ) (v : ℚ × ℚ × ℚ) (vs : List (ℚ × ℚ × ℚ)),
      (compute_model_transform m fx fy (some (v :: vs))).1.2.2 =
        (if (zBounds v vs).2 < |(zBounds v vs).1| then (zBounds v vs).2
         else -(zBounds v vs).1 / 2)) ∧
    zOffsetHeuristic (-17/5) (38/5) = 17/10 ∧
    zOffsetHeuristic (-239/40) (457/200) = 457/200 := by
  refine ⟨fun m fx fy v vs => rfl, ?_, ?_⟩
  · rw [zOffsetHeuristic, show |(-17 : ℚ)/5| = 17/5 by rw [abs_of_nonpos] <;> norm_num]
    norm_num
  · rw [zOffsetHeuristic, show |(-239 : ℚ)/40| = 239/40 by rw [abs_of_nonpos] <;> norm_num]
    norm_num

/-- C2: without raw vertex geometry the calculator returns the declared
fallback — `offset = (0, 0, model.z / 100)` and the declared rotation (or
`(0,0,0)` when absent); for `model.z = -1340` this gives
`offset.z = -13.4 = -67/5`. -/
theorem c2_declared_fallback :
    (∀ (m : Model3DRef) (fx fy : ℚ),
      compute_model_transform m fx fy none =
        ((0, 0, m.z / 100), m.rotation.getD (0, 0, 0))) ∧
    (∀ (u : Str) (ox oy : ℚ) (r : Option (ℚ × ℚ × ℚ)) (fx fy : ℚ),
      (compute_model_transform ⟨u, ox, oy, -1340, r⟩ fx fy none).1.2.2 = -67/5) := by
  constructor
  · intro m fx fy; rfl
  · intro u ox oy r fx fy
    show (-1340 : ℚ) / 100 = -67/5
    norm_num

/-- C8: in every case — with or without raw vertex geometry — the calculator
returns `offset.x = 0` and `offset.y = 0`. -/
theorem c8_xy_offsets_zero :
    ∀ (m : Model3DRef) (fx fy : ℚ) (obj : Option (List (ℚ × ℚ × ℚ))),
      (compute_model_transform m fx fy obj).1.1 = 0 ∧
      (compute_model_transform m fx fy obj).1.2.1 = 0 := by
  intro m fx fy obj
  match obj with
  | none => exact ⟨rfl, rfl⟩
  | some [] => exact ⟨rfl, rfl⟩
  | some (v :: vs) => exact ⟨rfl, rfl⟩

/-! ## Claim C9 — permissive shape-record parsing -/

theorem filterMap_isNone_length {α β : Type} (f : α → Option β) :
    ∀ l : List α,
      (l.filterMap f).length + (l.filter (fun x => (f x).isNone)).length = l.length := by
  intro l
  induction l with
  | nil => rfl
  | cons a t ih =>
    cases hfa : f a with
    | none =>
      simp only [List.filterMap_cons, List.filter_cons, hfa, Option.isNone_none,
        List.length_cons, if_true]
      omega
    | some b =>
      simp only [List.filterMap_cons, List.filter_cons, hfa, Option.isNone_some,
        List.length_cons, if_false, Bool.false_eq_true]
      omega

/-- A well-formed `PAD` record (tag plus twelve fields). -/
def goodPadStr : Str := "PAD~ELLIPSE~398~300~6~6~11~GND~1~0.9~398 297 398 303~0~gge5".data

/-- A garbage record: its tag is not in the schema table. -/
def garbageStr : Str := "not-a-record".data

/-- C9: shape-record parsing is permissive and total — every record that
fails its tag's schema is dropped (never an error, reflected here by
totality), parsed records plus dropped records account for the whole input,
and the aggregate lists only the successfully parsed records; in particular
one well-formed `PAD` plus one garbage string parse to exactly one pad with
one drop. -/
theorem c9_permissive_parsing :
    (∀ shapes : List Str,
      (parseShapes shapes).records.length + (parseShapes shapes).dropped = shapes.length) ∧
    (parseShapes [goodPadStr, garbageStr]).records =
      [ShapeRecord.pad ["ELLIPSE".data, "398".data, "300".data, "6".data, "6".data,
        "11".data, "GND".data, "1".data, "0.9".data, "398 297 398 303".data,
        "0".data, "gge5".data]] ∧
    (parseShapes [goodPadStr, garbageStr]).dropped = 1 ∧
    parseRecord garbageStr = none ∧
    parseRecord ("PAD~too~few".data) = none := by
  refine ⟨fun shapes => filterMap_isNone_length parseRecord shapes, ?_, ?_, ?_, ?_⟩ <;> decide

/-! ## Claim C6 — the string-quoting rule -/

/-- C6 (counterexample): the empty string contains no whitespace, no
parenthesis, no quote, and does not begin with a digit, yet the emitter
quotes it (it is emitted as `""`, not verbatim). -/
theorem c6_counterexample :
    _quote_if_needed [] = ['"', '"'] ∧ (['"', '"'] : Str) ≠ [] := by
  exact ⟨rfl, by decide⟩

/-- C6 (amended): a *nonempty* string is quoted only if it contains
whitespace, a parenthesis, or a quote character, or begins with a digit
(a digit in Python's Unicode-wide sense, `pyIsDigit` — e.g. `²` and `１`
count), and a nonempty string satisfying none of these conditions is emitted
unquoted; the empty string is always quoted (as `""`). -/
theorem c6_quote_rule :
    (∀ s : Str, _quote_if_needed s ≠ s →
      s = [] ∨ (∃ c ∈ s, c.isWhitespace = true ∨ c = '(' ∨ c = ')' ∨ c = '"') ∨
        (∃ c, s.head? = some c ∧ pyIsDigit c = true)) ∧
    (∀ (c : Char) (cs : Str),
      (∀ x ∈ c :: cs, ¬(x.isWhitespace = true ∨ x = '(' ∨ x = ')' ∨ x = '"')) →
      pyIsDigit c = false →
      _quote_if_needed (c :: cs) = c :: cs) := by
  constructor
  · intro s hs
    match s with
    | [] => exact Or.inl rfl
    | c :: cs =>
      refine Or.inr ?_
      rw [_quote_if_needed] at hs
      split at hs
      · next hcond =>
        rw [Bool.or_eq_true] at hcond
        rcases hcond with hany | hdig
        · refine Or.inl ?_
          rcases List.any_eq_true.mp hany with ⟨x, hx, hxq⟩
          refine ⟨x, hx, ?_⟩
          simp only [decide_eq_true_eq] at hxq
          rw [quoteTriggers] at hxq
          simp only [List.mem_cons, List.mem_nil_iff, or_false] at hxq
          rcases hxq with h | h | h | h | h | h
          · exact Or.inl (by rw [h]; rfl)
          · exact Or.inl (by rw [h]; rfl)
          · exact Or.inl (by rw [h]; rfl)
          · exact Or.inr (Or.inr (Or.inr h))
          · exact Or.inr (Or.inl h)
          · exact Or.inr (Or.inr (Or.inl h))
        · exact Or.inr ⟨c, rfl, hdig⟩
      · exact absurd rfl hs
  · intro c cs hnone hdig
    rw [_quote_if_needed, if_neg]
    rw [Bool.or_eq_true]
    rintro (hany | hdig')
    · rcases List.any_eq_true.mp hany with ⟨x, hx, hxq⟩
      simp only [decide_eq_true_eq] at hxq
      rw [quoteTriggers] at hxq
      simp only [List.mem_cons, List.mem_nil_iff, or_false] at hxq
      refine hnone x hx ?_
      rcases hxq with h | h | h | h | h | h
      · exact Or.inl (by rw [h]; rfl)
      · exact Or.inl (by rw [h]; rfl)
      · exact Or.inl (by rw [h]; rfl)
      · exact Or.inr (Or.inr (Or.inr h))
      · exact Or.inr (Or.inl h)
      · exact Or.inr (Or.inr (Or.inl h))
    · rw [hdig] at hdig'
      cases hdig'

/-- C6 (witness): both directions of `c6_quote_rule` at concrete inputs —
`abc` is emitted verbatim; `a b` (quoted for its space) and `²x` (quoted for
its leading superscript-two, a digit in Python's Unicode-wide sense) each
satisfy one of the quoting conditions. -/
theorem c6_witness :
    _quote_if_needed "abc".data = "abc".data ∧
    ("a b".data = [] ∨
      (∃ c ∈ "a b".data, c.isWhitespace = true ∨ c = '(' ∨ c = ')' ∨ c = '"') ∨
      (∃ c, "a b".data.head? = some c ∧ pyIsDigit c = true)) ∧
    ("²x".data = [] ∨
      (∃ c ∈ "²x".data, c.isWhitespace = true ∨ c = '(' ∨ c = ')' ∨ c = '"') ∨
      (∃ c, "²x".data.head? = some c ∧ pyIsDigit c = true)) :=
  ⟨c6_quote_rule.2 'a' "bc".data (by decide) (by decide),
   c6_quote_rule.1 "a b".data (by decide),
   c6_quote_rule.1 "²x".data (by decide)⟩

/-! ## Claim C7 — float formatting -/

theorem dropWhile_of_all {α : Type} {p : α → Bool} :
    ∀ l : List α, (∀ c ∈ l, p c = true) → l.dropWhile p = [] := by
  intro l h
  induction l with
  | nil => rfl
  | cons a t ih =>
    rw [List.dropWhile_cons, if_pos (h a (List.mem_cons_self a t))]
    exact ih (fun c hc => h c (List.mem_cons_of_mem a hc))

theorem dropWhile_of_none {α : Type} {p : α → Bool} :
    ∀ l : List α, (∀ c ∈ l, p c = false) → l.dropWhile p = l := by
  intro l h
  cases l with
  | nil => rfl
  | cons a t =>
    rw [List.dropWhile_cons, if_neg]
    rw [h a (List.mem_cons_self a t)]
    exact fun hc => nomatch hc

/-- Stripping trailing zeros and then a trailing point from
`pre ++ "." ++ frac`, when `frac` is all zeros and `pre` has no point,
yields `pre`. -/
theorem strip_zeros_dot (pre frac : Str) (hpre : '.' ∉ pre)
    (hfrac : ∀ c ∈ frac, c = '0') :
    stripTrailing '.' (stripTrailing '0' (pre ++ '.' :: frac)) = pre := by
  have h1 : stripTrailing '0' (pre ++ '.' :: frac) = pre ++ ['.'] := by
    rw [stripTrailing, List.reverse_append, List.reverse_cons, List.append_assoc,
      List.singleton_append, List.dropWhile_append]
    rw [dropWhile_of_all frac.reverse
      (fun c hc => by rw [List.mem_reverse] at hc; rw [hfrac c hc]; rfl)]
    rw [if_pos (show (List.isEmpty ([] : Str)) = true from rfl)]
    rw [List.dropWhile_cons, if_neg (by decide)]
    rw [List.reverse_cons, List.reverse_reverse]
  rw [h1, stripTrailing, List.reverse_append, List.reverse_singleton,
    List.singleton_append]
  rw [List.dropWhile_cons, if_pos (by decide)]
  rw [dropWhile_of_none pre.reverse (fun c hc => by
    rw [List.mem_reverse] at hc
    have : c ≠ '.' := fun h => hpre (h ▸ hc)
    exact beq_eq_false_iff_ne.mpr this)]
  exact List.reverse_reverse pre

theorem rhe_intCast (k : ℤ) : roundHalfEven (k : ℚ) = k := by
  rw [roundHalfEven]
  simp only [Int.floor_intCast, sub_self]
  rw [if_pos (by norm_num)]

/-- Decomposition of `fixed6` as `pre ++ '.' :: frac`. -/
theorem fixed6_eq (v : ℚ) :
    fixed6 v = ((if v < 0 then ['-'] else []) ++
      natDigits ((roundHalfEven (v * 1000000)).natAbs / 1000000)) ++
      '.' :: (List.replicate
          (6 - (natDigits ((roundHalfEven (v * 1000000)).natAbs % 1000000)).length) '0'
        ++ natDigits ((roundHalfEven (v * 1000000)).natAbs % 1000000)) := by
  simp only [fixed6, List.append_assoc]

/-- C7: `_format_float` prints an integral value (denominator 1) with no
decimal point; a non-integral value prints as its six-place fixed-precision
form with trailing zeros and any resulting trailing point stripped; integer
scalar items are printed verbatim by the renderer. -/
theorem c7_float_formatting :
    (∀ v : ℚ, v.den = 1 → '.' ∉ _format_float v) ∧
    (∀ v : ℚ, v.den ≠ 1 →
      _format_float v = stripTrailing '.' (stripTrailing '0' (fixed6 v))) ∧
    (∀ (n : ℤ) (j : Nat), renderedItem (.int n) j = intRepr n) := by
  refine ⟨?_, ?_, fun n j => rfl⟩
  · intro v hden
    rw [_format_float]
    split
    · intro hmem
      rcases intRepr_chars hmem with h | h
      · exact absurd h (by decide)
      · exact absurd h (by decide)
    · have hv : ((v.num : ℚ)) = v := by
        conv_rhs => rw [← Rat.num_div_den v]
        rw [hden]
        push_cast
        ring
      have hn : roundHalfEven (v * 1000000) = v.num * 1000000 := by
        rw [show v * 1000000 = ((v.num * 1000000 : ℤ) : ℚ) by push_cast; rw [hv]]
        exact rhe_intCast _
      have hfp : (roundHalfEven (v * 1000000)).natAbs % 1000000 = 0 := by
        rw [hn, Int.natAbs_mul]
        rw [show ((1000000 : ℤ)).natAbs = 1000000 from rfl]
        exact Nat.mul_mod_left _ _
      have hpre : '.' ∉ (if v < 0 then ['-'] else []) ++
          natDigits ((roundHalfEven (v * 1000000)).natAbs / 1000000) := by
        intro hmem
        rcases List.mem_append.mp hmem with h | h
        · split at h
          · rw [List.mem_singleton] at h
            exact absurd h (by decide)
          · cases h
        · exact absurd (natDigits_digits h) (by decide)
      have hfrac : ∀ c ∈ List.replicate (6 - (natDigits 0).length) '0' ++ natDigits 0,
          c = '0' := by
        intro c hc
        rcases List.mem_append.mp hc with h | h
        · exact List.eq_of_mem_replicate h
        · rw [show natDigits 0 = ['0'] from rfl, List.mem_singleton] at h
          exact h
      rw [fixed6_eq, hfp, strip_zeros_dot _ _ hpre hfrac]
      exact hpre
  · intro v hden
    rw [_format_float, if_neg]
    intro h
    exact hden h.1

/-- C7 (witness): both branches of `c7_float_formatting` applied at concrete
inputs — the integral `4/1` and the non-integral `1/2`. -/
theorem c7_witness :
    ('.' ∉ _format_float (mkRat 4 1)) ∧
    (_format_float (mkRat 1 2) =
      stripTrailing '.' (stripTrailing '0' (fixed6 (mkRat 1 2)))) :=
  ⟨c7_float_formatting.1 (mkRat 4 1) (by decide),
   c7_float_formatting.2.1 (mkRat 1 2) (by decide)⟩

/-! ## Claim C10 — inline entries are emitted before block children -/

theorem isBlockItem_sub (e : SExpr) (j : Nat) :
    isBlockItem (.sub e) j = true ↔ ('\n' ∈ render e j ∨ 80 < (render e j).length) := by
  simp [isBlockItem]

theorem partitionItems_eq (items : List SItem) (i : Nat) :
    partitionItems items i = (inlineStrs items i, blockStrs items i) := by
  induction items with
  | nil => rfl
  | cons it rest ih =>
    cases it with
    | sub e =>
      by_cases hb : '\n' ∈ render e (i + 1) ∨ 80 < (render e (i + 1)).length
      · have hbool : isBlockItem (.sub e) (i + 1) = true := (isBlockItem_sub e (i + 1)).mpr hb
        simp only [partitionItems, if_pos hb, ih]
        simp [inlineStrs, blockStrs, List.filter_cons, hbool, renderedItem]
      · have hbool : isBlockItem (.sub e) (i + 1) = false := by
          rw [← Bool.not_eq_true]
          exact fun h => hb ((isBlockItem_sub e (i + 1)).mp h)
        simp only [partitionItems, if_neg hb, ih]
        simp [inlineStrs, blockStrs, List.filter_cons, hbool, renderedItem]
    | str s =>
      simp only [partitionItems, ih]
      simp [inlineStrs, blockStrs, List.filter_cons, isBlockItem, renderedItem]
    | flt q =>
      simp only [partitionItems, ih]
      simp [inlineStrs, blockStrs, List.filter_cons, isBlockItem, renderedItem]
    | int n =>
      simp only [partitionItems, ih]
      simp [inlineStrs, blockStrs, List.filter_cons, isBlockItem, renderedItem]

theorem filter_filter_self {α : Type} (p : α → Bool) (l : List α) :
    (l.filter p).filter p = l.filter p := by
  induction l with
  | nil => rfl
  | cons a t ih =>
    cases hpa : p a <;> simp [List.filter_cons, hpa, ih]

theorem filter_filter_neg {α : Type} (p : α → Bool) (l : List α) :
    (l.filter (fun x => !p x)).filter p = [] := by
  induction l with
  | nil => rfl
  | cons a t ih =>
    cases hpa : p a <;> simp [List.filter_cons, hpa, ih]

theorem filter_neg_filter {α : Type} (p : α → Bool) (l : List α) :
    (l.filter p).filter (fun x => !p x) = [] := by
  induction l with
  | nil => rfl
  | cons a t ih =>
    cases hpa : p a <;> simp [List.filter_cons, hpa, ih]

/-- C10: `SExpr.render` emits all inline entries before all block children
regardless of insertion order, keeping insertion order within each group:
the emitted groups are exactly the insertion-ordered filters (first
conjunct), so rendering a node whose items are pre-arranged to
inline-entries-then-block-children produces identical text (second
conjunct). -/
theorem c10_inline_before_block (name : Str) (items : List SItem) (i : Nat) :
    partitionItems items i = (inlineStrs items i, blockStrs items i) ∧
    render (.mk name (reorderItems items i)) i = render (.mk name items) i := by
  refine ⟨partitionItems_eq items i, ?_⟩
  have key : partitionItems (reorderItems items i) i = partitionItems items i := by
    rw [partitionItems_eq, partitionItems_eq, reorderItems]
    have h1 : inlineStrs
        (items.filter (fun it => !isBlockItem it (i + 1)) ++
          items.filter (fun it => isBlockItem it (i + 1))) i = inlineStrs items i := by
      rw [inlineStrs, inlineStrs, List.filter_append,
        filter_filter_self (fun it => !isBlockItem it (i + 1))]
      have : (items.filter (fun it => isBlockItem it (i + 1))).filter
          (fun it => !isBlockItem it (i + 1)) = [] :=
        filter_neg_filter (fun it => isBlockItem it (i + 1)) items
      rw [this, List.append_nil]
    have h2 : blockStrs
        (items.filter (fun it => !isBlockItem it (i + 1)) ++
          items.filter (fun it => isBlockItem it (i + 1))) i = blockStrs items i := by
      rw [blockStrs, blockStrs, List.filter_append,
        filter_filter_self (fun it => isBlockItem it (i + 1)),
        filter_filter_neg (fun it => isBlockItem it (i + 1)), List.nil_append]
    rw [h1, h2]
  simp only [render]
  rw [key]

/-! ## Claim C3 — the inline/block decision rule -/

/-- No string scalar in the item list contains a line break (node names and
nested nodes are unconstrained). -/
def scalarsNlFree : List SItem → Bool
  | [] => true
  | .str s :: rest => s.all (· != '\n') && scalarsNlFree rest
  | _ :: rest => scalarsNlFree rest

theorem quote_chars {s : Str} {c : Char} (h : c ∈ _quote_if_needed s) :
    c = '"' ∨ c ∈ s := by
  match s with
  | [] =>
    rw [_quote_if_needed] at h
    rcases List.mem_cons.mp h with h | h
    · exact Or.inl h
    · rw [List.mem_singleton] at h
      exact Or.inl h
  | a :: as =>
    rw [_quote_if_needed] at h
    split at h
    · rcases List.mem_cons.mp h with h | h
      · exact Or.inl h
      · rcases List.mem_append.mp h with h | h
        · exact Or.inr h
        · rw [List.mem_singleton] at h
          exact Or.inl h
    · exact Or.inr h

theorem mem_stripTrailing {ch : Char} {s : Str} {c : Char}
    (h : c ∈ stripTrailing ch s) : c ∈ s := by
  rw [stripTrailing, List.mem_reverse] at h
  rw [← List.mem_reverse]
  exact (List.dropWhile_sublist _).mem h

theorem fixed6_chars {v : ℚ} {c : Char} (h : c ∈ fixed6 v) :
    c = '-' ∨ c = '.' ∨ c.isDigit = true := by
  rw [fixed6_eq] at h
  rcases List.mem_append.mp h with h | h
  · rcases List.mem_append.mp h with h | h
    · split at h
      · rw [List.mem_singleton] at h
        exact Or.inl h
      · cases h
    · exact Or.inr (Or.inr (natDigits_digits h))
  · rcases List.mem_cons.mp h with h | h
    · exact Or.inr (Or.inl h)
    · rcases List.mem_append.mp h with h | h
      · exact Or.inr (Or.inr (List.eq_of_mem_replicate h ▸ by decide))
      · exact Or.inr (Or.inr (natDigits_digits h))

theorem formatFloat_chars {v : ℚ} {c : Char} (h : c ∈ _format_float v) :
    c = '-' ∨ c = '.' ∨ c.isDigit = true := by
  rw [_format_float] at h
  split at h
  · rcases intRepr_chars h with h | h
    · exact Or.inl h
    · exact Or.inr (Or.inr h)
  · exact fixed6_chars (mem_stripTrailing (mem_stripTrailing h))

theorem formatFloat_nl_free (v : ℚ) : '\n' ∉ _format_float v := by
  intro h
  rcases formatFloat_chars h with h | h | h
  · exact absurd h (by decide)
  · exact absurd h (by decide)
  · exact absurd h (by decide)

theorem intRepr_nl_free (n : ℤ) : '\n' ∉ intRepr n := by
  intro h
  rcases intRepr_chars h with h | h
  · exact absurd h (by decide)
  · exact absurd h (by decide)

theorem mem_joinSpace {l : List Str} {c : Char} (h : c ∈ joinSpace l) :
    c = ' ' ∨ ∃ s ∈ l, c ∈ s := by
  induction l with
  | nil => cases h
  | cons s rest ih =>
    cases rest with
    | nil =>
      exact Or.inr ⟨s, List.mem_cons_self s [], h⟩
    | cons s' r' =>
      rw [joinSpace] at h
      rcases List.mem_append.mp h with h | h
      · exact Or.inr ⟨s, List.mem_cons_self s _, h⟩
      · rcases List.mem_cons.mp h with h | h
        · exact Or.inl h
        · rcases ih h with h | ⟨t, ht, hc⟩
          · exact Or.inl h
          · exact Or.inr ⟨t, List.mem_cons_of_mem s ht, hc⟩

theorem inlineStrs_nl_free {items : List SItem} {i : Nat}
    (hs : scalarsNlFree items = true) :
    ∀ x ∈ inlineStrs items i, '\n' ∉ x := by
  induction items with
  | nil => intro x hx; cases hx
  | cons it rest ih =>
    intro x hx
    cases it with
    | sub e =>
      rw [inlineStrs, List.filter_cons] at hx
      have hs' : scalarsNlFree rest = true := hs
      cases hb : isBlockItem (.sub e) (i + 1) with
      | true =>
        rw [hb] at hx
        simp only [Bool.not_true, Bool.false_eq_true, if_false] at hx
        exact ih hs' x hx
      | false =>
        rw [hb] at hx
        simp only [Bool.not_false, if_true, List.map_cons, List.mem_cons] at hx
        rcases hx with hx | hx
        · subst hx
          intro hnl
          have : isBlockItem (.sub e) (i + 1) = true :=
            (isBlockItem_sub e (i + 1)).mpr (Or.inl hnl)
          rw [hb] at this
          cases this
        · exact ih hs' x hx
    | str s =>
      rw [inlineStrs, List.filter_cons] at hx
      have hsplit : (s.all (· != '\n')) = true ∧ scalarsNlFree rest = true := by
        have := hs
        rw [scalarsNlFree, Bool.and_eq_true] at this
        exact this
      simp only [isBlockItem, Bool.not_false, if_true, List.map_cons,
        List.mem_cons] at hx
      rcases hx with hx | hx
      · subst hx
        intro hnl
        rcases quote_chars hnl with h | h
        · cases h
        · have := List.all_eq_true.mp hsplit.1 '\n' h
          rw [bne_self_eq_false] at this
          cases this
      · exact ih hsplit.2 x hx
    | flt q =>
      rw [inlineStrs, List.filter_cons] at hx
      simp only [isBlockItem, Bool.not_false, if_true, List.map_cons,
        List.mem_cons] at hx
      rcases hx with hx | hx
      · subst hx
        exact formatFloat_nl_free q
      · exact ih hs x hx
    | int n =>
      rw [inlineStrs, List.filter_cons] at hx
      simp only [isBlockItem, Bool.not_false, if_true, List.map_cons,
        List.mem_cons] at hx
      rcases hx with hx | hx
      · subst hx
        exact intRepr_nl_free n
      · exact ih hs x hx

theorem blockStrs_ne_nil_iff (items : List SItem) (i : Nat) :
    blockStrs items i ≠ [] ↔
      ∃ e, .sub e ∈ items ∧ ('\n' ∈ render e (i + 1) ∨ 80 < (render e (i + 1)).length) := by
  rw [blockStrs]
  rw [ne_eq, List.map_eq_nil_iff, List.filter_eq_nil_iff]
  push_neg
  constructor
  · rintro ⟨it, hit, hb⟩
    cases it with
    | sub e => exact ⟨e, hit, (isBlockItem_sub e (i + 1)).mp hb⟩
    | str s => cases hb
    | flt q => cases hb
    | int n => cases hb
  · rintro ⟨e, he, hcond⟩
    exact ⟨.sub e, he, (isBlockItem_sub e (i + 1)).mpr hcond⟩

set_option maxRecDepth 4000 in
/-- C3 (counterexample): a node with forty short string scalars renders to a
single line of 123 characters.  Its full inline rendering *is* its rendering
(it has no child nodes at all), exceeds 80 characters, and yet no line break
is produced, contradicting the claim that such a tree renders as an indented
multi-line block. -/
theorem c3_counterexample :
    80 < (render (.mk "a".data (List.replicate 40 (.str "bb".data))) 0).length ∧
    '\n' ∉ render (.mk "a".data (List.replicate 40 (.str "bb".data))) 0 := by
  constructor
  · decide
  · decide

/-- C3 (amended): for a node whose own name and string scalars contain no
line break, the rendering is multi-line exactly when some *child node's* own
rendering contains a line break or exceeds 80 characters; the 80-column test
applies to each child's rendering, not to the node's total inline
rendering (a node whose total exceeds 80 characters but whose every child is
short still renders on a single line). -/
theorem c3_per_child_rule (name : Str) (items : List SItem) (i : Nat)
    (hname : '\n' ∉ name) (hs : scalarsNlFree items = true) :
    ('\n' ∈ render (.mk name items) i) ↔
      ∃ e, .sub e ∈ items ∧ ('\n' ∈ render e (i + 1) ∨ 80 < (render e (i + 1)).length) := by
  have hwi : '\n' ∉ (if inlineStrs items i = [] then '(' :: name
      else '(' :: name ++ ' ' :: joinSpace (inlineStrs items i)) := by
    split
    · intro h
      rcases List.mem_cons.mp h with h | h
      · cases h
      · exact hname h
    · intro h
      rcases List.mem_cons.mp h with h | h
      · cases h
      · rcases List.mem_append.mp h with h | h
        · exact hname h
        · rcases List.mem_cons.mp h with h | h
          · cases h
          · rcases mem_joinSpace h with h | ⟨s, hsmem, hc⟩
            · cases h
            · exact inlineStrs_nl_free hs s hsmem hc
  simp only [render, partitionItems_eq]
  by_cases hb : blockStrs items i = []
  · rw [if_pos hb]
    constructor
    · intro h
      exact absurd h (by
        intro h
        rcases List.mem_append.mp h with h | h
        · exact hwi h
        · rw [List.mem_singleton] at h
          cases h)
    · intro hex
      exact absurd hb ((blockStrs_ne_nil_iff items i).mpr hex)
  · rw [if_neg hb]
    constructor
    · intro _
      exact (blockStrs_ne_nil_iff items i).mp hb
    · intro _
      exact List.mem_append.mpr (Or.inl (List.mem_append.mpr (Or.inl
        (List.mem_append.mpr (Or.inr (List.mem_cons_self _ _))))))

/-- C3 (witness): the amended rule applied to a concrete node with a short
child node and a string scalar: its rendering is single-line, and indeed no
child's rendering is long or multi-line. -/
theorem c3_witness :
    ('\n' ∈ render (.mk "abc".data [.sub (.mk "x".data []), .str "y".data]) 0) ↔
      ∃ e, .sub e ∈ [SItem.sub (.mk "x".data []), SItem.str "y".data] ∧
        ('\n' ∈ render e 1 ∨ 80 < (render e 1).length) :=
  c3_per_child_rule "abc".data [.sub (.mk "x".data []), .str "y".data] 0
    (by decide) (by decide)

/-! ## Claim C4 — tokenizer lemmas -/

/-- A character that terminates a bare token. -/
def isDelim (c : Char) : Bool := isWS c || c == '(' || c == ')' || c == '"'

theorem bareChar_spec {c : Char} (h : bareChar c = true) :
    isWS c = false ∧ c ≠ '(' ∧ c ≠ ')' ∧ c ≠ '"' := by
  rw [bareChar] at h
  simp only [Bool.and_eq_true, Bool.not_eq_true', bne_iff_ne] at h
  exact ⟨h.1.1.1, h.1.1.2, h.1.2, h.2⟩

theorem tokRun_ws {ws : Str} (hws : ∀ c ∈ ws, isWS c = true) :
    ∀ (rest : Str) (out : List Tok),
      tokRun (ws ++ rest) .norm out = tokRun rest .norm out := by
  induction ws with
  | nil => intro rest out; rfl
  | cons c cs ih =>
    intro rest out
    rw [List.cons_append, tokRun, if_pos (hws c (List.mem_cons_self c cs))]
    exact ih (fun x hx => hws x (List.mem_cons_of_mem c hx)) rest out

theorem tokRun_bare_acc {tk : Str} (htk : ∀ c ∈ tk, bareChar c = true) :
    ∀ (rest acc : Str) (out : List Tok),
      tokRun (tk ++ rest) (.bare acc) out = tokRun rest (.bare (acc ++ tk)) out := by
  induction tk with
  | nil => intro rest acc out; rw [List.nil_append, List.append_nil]
  | cons c cs ih =>
    intro rest acc out
    obtain ⟨h1, h2, h3, h4⟩ := bareChar_spec (htk c (List.mem_cons_self c cs))
    rw [List.cons_append, tokRun, if_neg (by rw [h1]; exact fun h => nomatch h),
      if_neg h2, if_neg h3, if_neg h4]
    rw [ih (fun x hx => htk x (List.mem_cons_of_mem c hx)) rest (acc ++ [c]) out]
    rw [List.append_assoc, List.singleton_append]

theorem tokRun_quot_acc {s : Str} (hs : ∀ c ∈ s, c ≠ '"') :
    ∀ (rest acc : Str) (out : List Tok),
      tokRun (s ++ rest) (.quot acc) out = tokRun rest (.quot (acc ++ s)) out := by
  induction s with
  | nil => intro rest acc out; rw [List.nil_append, List.append_nil]
  | cons c cs ih =>
    intro rest acc out
    rw [List.cons_append, tokRun, if_neg (hs c (List.mem_cons_self c cs))]
    rw [ih (fun x hx => hs x (List.mem_cons_of_mem c hx)) rest (acc ++ [c]) out]
    rw [List.append_assoc, List.singleton_append]

theorem tokRun_bare_tok {tk : Str} (hne : tk ≠ []) (htk : ∀ c ∈ tk, bareChar c = true)
    {d : Char} (hd : isDelim d = true) :
    ∀ (rest : Str) (out : List Tok),
      tokRun (tk ++ d :: rest) .norm out =
        tokRun (d :: rest) .norm (out ++ [.atom tk]) := by
  match tk, hne with
  | c :: cs, _ =>
    intro rest out
    obtain ⟨h1, h2, h3, h4⟩ := bareChar_spec (htk c (List.mem_cons_self c cs))
    rw [List.cons_append, tokRun, if_neg (by rw [h1]; exact fun h => nomatch h),
      if_neg h2, if_neg h3, if_neg h4]
    rw [tokRun_bare_acc (fun x hx => htk x (List.mem_cons_of_mem c hx)) (d :: rest) [c] out]
    rw [List.singleton_append]
    rw [isDelim] at hd
    simp only [Bool.or_eq_true, beq_iff_eq] at hd
    rcases hd with ((hdws | hdl) | hdr) | hdq
    · rw [tokRun, if_pos hdws, tokRun, if_pos hdws]
    · subst hdl
      rw [tokRun, if_neg (by decide), if_pos rfl]
      rw [tokRun, if_neg (by decide), if_pos rfl]
      rw [List.append_assoc]
      rfl
    · subst hdr
      rw [tokRun, if_neg (by decide), if_neg (by decide), if_pos rfl]
      rw [tokRun, if_neg (by decide), if_neg (by decide), if_pos rfl]
      rw [List.append_assoc]
      rfl
    · subst hdq
      rw [tokRun, if_neg (by decide), if_neg (by decide), if_neg (by decide), if_pos rfl]
      rw [tokRun, if_neg (by decide), if_neg (by decide), if_neg (by decide), if_pos rfl]

theorem tokRun_quoted {s : Str} (hs : ∀ c ∈ s, c ≠ '"') :
    ∀ (rest : Str) (out : List Tok),
      tokRun ('"' :: (s ++ '"' :: rest)) .norm out =
        tokRun rest .norm (out ++ [.atom s]) := by
  intro rest out
  rw [tokRun, if_neg (by decide), if_neg (by decide), if_neg (by decide), if_pos rfl]
  rw [tokRun_quot_acc hs ('"' :: rest) [] out, List.nil_append]
  rw [tokRun, if_pos rfl]

/-! ## Claim C4 — scalar atoms are nonempty bare tokens -/

theorem stripTrailing_eq_self {c : Char} {s : Str} {a : Char} {t : Str}
    (he : s.reverse = a :: t) (hac : (a == c) = false) : stripTrailing c s = s := by
  rw [stripTrailing, he, List.dropWhile_cons,
    if_neg (by rw [hac]; exact fun h => nomatch h), ← he, List.reverse_reverse]

theorem dropWhile_head_false {α : Type} {p : α → Bool} :
    ∀ {l : List α} {a : α} {t : List α}, l.dropWhile p = a :: t → p a = false := by
  intro l
  induction l with
  | nil => intro a t h; cases h
  | cons x xs ih =>
    intro a t h
    rw [List.dropWhile_cons] at h
    split at h
    · exact ih h
    · next hpx =>
      cases h
      cases hv : p x with
      | false => rfl
      | true => exact absurd hv hpx

theorem no_dot_sign_digits (P : Prop) [Decidable P] (m : Nat) :
    '.' ∉ ((if P then ['-'] else []) ++ natDigits m) := by
  intro h
  rcases List.mem_append.mp h with h | h
  · split at h
    · rw [List.mem_singleton] at h
      exact absurd h (by decide)
    · cases h
  · exact absurd (natDigits_digits h) (by decide)

theorem sign_digits_ne_nil (P : Prop) [Decidable P] (m : Nat) :
    ((if P then ['-'] else []) ++ natDigits m) ≠ [] := by
  intro h
  exact natDigits_ne_nil m (List.append_eq_nil.mp h).2

theorem stripped_fixed6_ne_nil (v : ℚ) :
    stripTrailing '.' (stripTrailing '0' (fixed6 v)) ≠ [] := by
  have h6 := fixed6_eq v
  set pre := (if v < 0 then ['-'] else []) ++
    natDigits ((roundHalfEven (v * 1000000)).natAbs / 1000000) with hpre_def
  set frac := List.replicate
      (6 - (natDigits ((roundHalfEven (v * 1000000)).natAbs % 1000000)).length) '0' ++
    natDigits ((roundHalfEven (v * 1000000)).natAbs % 1000000) with hfrac_def
  have hpne : pre ≠ [] := sign_digits_ne_nil _ _
  have hpredot : '.' ∉ pre := no_dot_sign_digits _ _
  have hfd : ∀ c ∈ frac, c.isDigit = true := by
    intro c hc
    rcases List.mem_append.mp hc with h | h
    · rw [List.eq_of_mem_replicate h]; decide
    · exact natDigits_digits h
  rw [h6]
  cases hR : List.dropWhile (· == '0') frac.reverse with
  | nil =>
    have hall : ∀ c ∈ frac, c = '0' := by
      intro c hc
      have := List.dropWhile_eq_nil_iff.mp hR c (List.mem_reverse.mpr hc)
      exact beq_iff_eq.mp this
    rw [strip_zeros_dot pre frac hpredot hall]
    exact hpne
  | cons r0 R' =>
    have hr0 : (r0 == '0') = false :=
      dropWhile_head_false (p := fun x => x == '0') hR
    have hr0mem : r0 ∈ frac := by
      have h1 : r0 ∈ List.dropWhile (· == '0') frac.reverse := by
        rw [hR]; exact List.mem_cons_self _ _
      exact List.mem_reverse.mp ((List.dropWhile_sublist _).mem h1)
    have hr0dot : (r0 == '.') = false :=
      beq_eq_false_iff_ne.mpr (isDigit_ne r0 (hfd r0 hr0mem)).1
    have h1 : stripTrailing '0' (pre ++ '.' :: frac) =
        pre ++ '.' :: (r0 :: R').reverse := by
      rw [stripTrailing, List.reverse_append, List.reverse_cons, List.append_assoc,
        List.singleton_append, List.dropWhile_append, hR]
      rw [if_neg (by rw [List.isEmpty_cons]; exact fun h => nomatch h)]
      rw [List.reverse_append, List.reverse_cons, List.reverse_reverse,
        List.append_assoc, List.singleton_append]
    rw [h1]
    have he : (pre ++ '.' :: (r0 :: R').reverse).reverse =
        r0 :: (R' ++ '.' :: pre.reverse) := by
      rw [List.reverse_append, List.reverse_cons, List.reverse_reverse,
        List.append_assoc, List.singleton_append, List.cons_append]
    rw [stripTrailing_eq_self he hr0dot]
    intro h
    exact hpne (List.append_eq_nil.mp h).1

theorem formatFloat_ne_nil (v : ℚ) : _format_float v ≠ [] := by
  rw [_format_float]
  split
  · exact intRepr_ne_nil _
  · exact stripped_fixed6_ne_nil v

theorem formatFloat_bare (v : ℚ) : ∀ c ∈ _format_float v, bareChar c = true := by
  intro c hc
  rcases formatFloat_chars hc with h | h | h
  · rw [h]; decide
  · rw [h]; decide
  · exact (isDigit_ne c h).2.2.2

theorem intRepr_bare (n : ℤ) : ∀ c ∈ intRepr n, bareChar c = true := by
  intro c hc
  rcases intRepr_chars hc with h | h
  · rw [h]; decide
  · exact (isDigit_ne c h).2.2.2

/-! ## Claim C4 — scalar piece lemmas -/

theorem notTrigger_bare {x : Char} (h : x ∉ quoteTriggers) : bareChar x = true := by
  rw [quoteTriggers] at h
  simp only [List.mem_cons, List.mem_nil_iff, or_false, not_or] at h
  obtain ⟨h1, h2, h3, h4, h5, h6⟩ := h
  rw [bareChar, isWS]
  simp [beq_eq_false_iff_ne.mpr h1, beq_eq_false_iff_ne.mpr h2,
    beq_eq_false_iff_ne.mpr h3, bne_iff_ne.mpr h5, bne_iff_ne.mpr h6,
    bne_iff_ne.mpr h4]

theorem str_piece {s : Str} (hq : ∀ c ∈ s, c ≠ '"') {d : Char} (hd : isDelim d = true) :
    ∀ (rest : Str) (out : List Tok),
      tokRun (_quote_if_needed s ++ d :: rest) .norm out =
        tokRun (d :: rest) .norm (out ++ [.atom s]) := by
  intro rest out
  cases s with
  | nil =>
    show tokRun ('"' :: ([] ++ '"' :: (d :: rest))) .norm out = _
    exact tokRun_quoted (s := []) (fun c hc => absurd hc (List.not_mem_nil c)) (d :: rest) out
  | cons c cs =>
    rw [_quote_if_needed]
    split
    · have hshape : ('"' :: (c :: cs) ++ ['"']) ++ d :: rest =
          '"' :: ((c :: cs) ++ '"' :: (d :: rest)) := by
        simp
      rw [hshape]
      exact tokRun_quoted hq (d :: rest) out
    · next hcond =>
      have hany : ((c :: cs).any fun x => decide (x ∈ quoteTriggers)) = false := by
        cases hh : ((c :: cs).any fun x => decide (x ∈ quoteTriggers)) with
        | false => rfl
        | true => exact absurd (by rw [hh, Bool.true_or]) hcond
      have hbare : ∀ x ∈ c :: cs, bareChar x = true := by
        intro x hx
        refine notTrigger_bare (fun hmem => ?_)
        have htr : ((c :: cs).any fun y => decide (y ∈ quoteTriggers)) = true :=
          List.any_eq_true.mpr ⟨x, hx, decide_eq_true hmem⟩
        rw [htr] at hany
        exact absurd hany (by decide)
      exact tokRun_bare_tok (List.cons_ne_nil c cs) hbare hd rest out

theorem flt_piece (v : ℚ) {d : Char} (hd : isDelim d = true) :
    ∀ (rest : Str) (out : List Tok),
      tokRun (_format_float v ++ d :: rest) .norm out =
        tokRun (d :: rest) .norm (out ++ [.atom (_format_float v)]) :=
  tokRun_bare_tok (formatFloat_ne_nil v) (formatFloat_bare v) hd

theorem int_piece (n : ℤ) {d : Char} (hd : isDelim d = true) :
    ∀ (rest : Str) (out : List Tok),
      tokRun (intRepr n ++ d :: rest) .norm out =
        tokRun (d :: rest) .norm (out ++ [.atom (intRepr n)]) :=
  tokRun_bare_tok (intRepr_ne_nil n) (intRepr_bare n) hd

/-! ## Claim C4 — single-step tokenizer facts and vacuous-token lemmas -/

theorem lparen_step (cs : Str) (out : List Tok) :
    tokRun ('(' :: cs) .norm out = tokRun cs .norm (out ++ [.l]) := by
  rw [tokRun, if_neg (by decide), if_pos rfl]

theorem rparen_step (cs : Str) (out : List Tok) :
    tokRun (')' :: cs) .norm out = tokRun cs .norm (out ++ [.r]) := by
  rw [tokRun, if_neg (by decide), if_neg (by decide), if_pos rfl]

theorem ws_step {c : Char} (h : isWS c = true) (cs : Str) (out : List Tok) :
    tokRun (c :: cs) .norm out = tokRun cs .norm out := by
  rw [tokRun, if_pos h]

theorem indentStr_ws (n : Nat) : ∀ c ∈ indentStr n, isWS c = true := by
  intro c hc
  rw [indentStr] at hc
  rw [List.eq_of_mem_replicate hc]
  rfl

theorem wfTree_parts {name : Str} {items : List SItem}
    (h : wfTree (.mk name items) = true) :
    name ≠ [] ∧ (∀ c ∈ name, bareChar c = true) ∧ wfItems items = true := by
  rw [wfTree] at h
  simp only [Bool.and_eq_true] at h
  refine ⟨?_, List.all_eq_true.mp h.1.2, h.2⟩
  intro hn
  have := h.1.1
  rw [hn] at this
  exact absurd this (by decide)

theorem inlineToks_nil : ∀ {items : List SItem} {i : Nat},
    inlineStrs items i = [] → inlineToks items i = [] := by
  intro items
  induction items with
  | nil => intro i _; rfl
  | cons it rest ih =>
    intro i h
    cases it with
    | sub e =>
      rw [inlineStrs, List.filter_cons] at h
      cases hb : isBlockItem (.sub e) (i + 1) with
      | true =>
        rw [hb] at h
        simp only [Bool.not_true, Bool.false_eq_true, if_false] at h
        rw [inlineToks, hb, if_pos rfl, List.nil_append]
        exact ih h
      | false =>
        rw [hb] at h
        simp only [Bool.not_false, if_true, List.map_cons] at h
        cases h
    | str s =>
      rw [inlineStrs, List.filter_cons] at h
      simp only [isBlockItem, Bool.not_false, if_true, List.map_cons] at h
      cases h
    | flt q =>
      rw [inlineStrs, List.filter_cons] at h
      simp only [isBlockItem, Bool.not_false, if_true, List.map_cons] at h
      cases h
    | int n =>
      rw [inlineStrs, List.filter_cons] at h
      simp only [isBlockItem, Bool.not_false, if_true, List.map_cons] at h
      cases h

theorem blockToks_nil : ∀ {items : List SItem} {i : Nat},
    blockStrs items i = [] → blockToks items i = [] := by
  intro items
  induction items with
  | nil => intro i _; rfl
  | cons it rest ih =>
    intro i h
    cases it with
    | sub e =>
      rw [blockStrs, List.filter_cons] at h
      cases hb : isBlockItem (.sub e) (i + 1) with
      | true =>
        rw [hb] at h
        simp only [if_true, List.map_cons] at h
        cases h
      | false =>
        rw [hb] at h
        simp only [Bool.false_eq_true, if_false] at h
        rw [blockToks, hb, if_neg (by exact fun hh => nomatch hh), List.nil_append]
        exact ih h
    | str s =>
      rw [blockStrs, List.filter_cons] at h
      simp only [isBlockItem, Bool.false_eq_true, if_false] at h
      rw [blockToks]
      exact ih h
    | flt q =>
      rw [blockStrs, List.filter_cons] at h
      simp only [isBlockItem, Bool.false_eq_true, if_false] at h
      rw [blockToks]
      exact ih h
    | int n =>
      rw [blockStrs, List.filter_cons] at h
      simp only [isBlockItem, Bool.false_eq_true, if_false] at h
      rw [blockToks]
      exact ih h

/-! ## Claim C4 — tokenizing rendered text yields the canonical token stream -/

theorem wfItems_str {s : Str} {rest : List SItem}
    (h : wfItems (.str s :: rest) = true) :
    (∀ c ∈ s, c ≠ '"') ∧ wfItems rest = true := by
  rw [wfItems, Bool.and_eq_true] at h
  refine ⟨fun c hc => ?_, h.2⟩
  have := List.all_eq_true.mp h.1 c hc
  exact bne_iff_ne.mp this

mutual
theorem tokRun_render : ∀ (e : SExpr) (i : Nat) (rest : Str) (out : List Tok),
    wfTree e = true →
    tokRun (render e i ++ rest) .norm out = tokRun rest .norm (out ++ toks e i)
  | .mk name items, i, rest, out, hwf => by
    obtain ⟨hne, hbare, hitems⟩ := wfTree_parts hwf
    simp only [render, partitionItems_eq]
    by_cases hinl : inlineStrs items i = [] <;> by_cases hblk : blockStrs items i = []
    · rw [if_pos hinl, if_pos hblk]
      simp only [List.cons_append, List.append_assoc, List.singleton_append]
      rw [lparen_step, tokRun_bare_tok hne hbare (by decide), rparen_step]
      simp [toks, inlineToks_nil hinl, blockToks_nil hblk, List.append_assoc]
    · rw [if_pos hinl, if_neg hblk]
      simp only [List.cons_append, List.append_assoc, List.singleton_append]
      rw [lparen_step, tokRun_bare_tok hne hbare (by decide),
        ws_step (by decide), tokRun_blocks items i _ _ hitems,
        tokRun_ws (indentStr_ws i), rparen_step]
      simp [toks, inlineToks_nil hinl, List.append_assoc]
    · rw [if_neg hinl, if_pos hblk]
      simp only [List.cons_append, List.append_assoc, List.singleton_append]
      rw [lparen_step, tokRun_bare_tok hne hbare (by decide),
        ws_step (by decide), tokRun_inline items i ')' (by decide) hitems,
        rparen_step]
      simp [toks, blockToks_nil hblk, List.append_assoc]
    · rw [if_neg hinl, if_neg hblk]
      simp only [List.cons_append, List.append_assoc, List.singleton_append]
      rw [lparen_step, tokRun_bare_tok hne hbare (by decide),
        ws_step (by decide), tokRun_inline items i '\n' (by decide) hitems,
        ws_step (by decide), tokRun_blocks items i _ _ hitems,
        tokRun_ws (indentStr_ws i), rparen_step]
      simp [toks, List.append_assoc]
termination_by structural e _ _ _ _ => e

theorem tokRun_inline : ∀ (items : List SItem) (i : Nat) (d : Char),
    isDelim d = true → wfItems items = true → ∀ (rest : Str) (out : List Tok),
    tokRun (joinSpace (inlineStrs items i) ++ d :: rest) .norm out =
      tokRun (d :: rest) .norm (out ++ inlineToks items i)
  | [], i, d, hd, hw, rest, out => by
    simp [inlineStrs, inlineToks, joinSpace]
  | .sub e :: rest', i, d, hd, hw, rest, out => by
    have hw2 : wfTree e = true ∧ wfItems rest' = true := by
      rw [wfItems, Bool.and_eq_true] at hw
      exact hw
    cases hb : isBlockItem (.sub e) (i + 1) with
    | true =>
      have h1 : inlineStrs (.sub e :: rest') i = inlineStrs rest' i := by
        rw [inlineStrs, List.filter_cons, hb]
        simp [inlineStrs]
      have h2 : inlineToks (.sub e :: rest') i = inlineToks rest' i := by
        rw [inlineToks, hb, if_pos rfl, List.nil_append]
      rw [h1, h2]
      exact tokRun_inline rest' i d hd hw2.2 rest out
    | false =>
      have h1 : inlineStrs (.sub e :: rest') i =
          render e (i + 1) :: inlineStrs rest' i := by
        rw [inlineStrs, List.filter_cons, hb]
        simp [inlineStrs, renderedItem]
      have h2 : inlineToks (.sub e :: rest') i =
          toks e (i + 1) ++ inlineToks rest' i := by
        rw [inlineToks, hb]
        simp
      rw [h1, h2]
      cases hxs : inlineStrs rest' i with
      | nil =>
        rw [joinSpace]
        rw [tokRun_render e (i + 1) (d :: rest) out hw2.1]
        rw [inlineToks_nil hxs]
        simp [List.append_assoc]
      | cons x xs =>
        rw [joinSpace]
        simp only [List.append_assoc, List.cons_append]
        rw [tokRun_render e (i + 1) _ out hw2.1]
        rw [ws_step (by decide)]
        rw [← hxs]
        rw [tokRun_inline rest' i d hd hw2.2 rest]
        simp [List.append_assoc]
  | .str s :: rest', i, d, hd, hw, rest, out => by
    obtain ⟨hq, hw'⟩ := wfItems_str hw
    have h1 : inlineStrs (.str s :: rest') i =
        _quote_if_needed s :: inlineStrs rest' i := by
      rw [inlineStrs, List.filter_cons]
      simp [isBlockItem, inlineStrs, renderedItem]
    have h2 : inlineToks (.str s :: rest') i = .atom s :: inlineToks rest' i := by
      rw [inlineToks]
    rw [h1, h2]
    cases hxs : inlineStrs rest' i with
    | nil =>
      rw [joinSpace]
      rw [str_piece hq hd rest out]
      rw [inlineToks_nil hxs]
    | cons x xs =>
      rw [joinSpace]
      simp only [List.append_assoc, List.cons_append]
      rw [str_piece hq (show isDelim ' ' = true by decide)]
      rw [ws_step (by decide)]
      rw [← hxs]
      rw [tokRun_inline rest' i d hd hw' rest]
      simp [List.append_assoc]
  | .flt q :: rest', i, d, hd, hw, rest, out => by
    have hw' : wfItems rest' = true := hw
    have h1 : inlineStrs (.flt q :: rest') i =
        _format_float q :: inlineStrs rest' i := by
      rw [inlineStrs, List.filter_cons]
      simp [isBlockItem, inlineStrs, renderedItem]
    have h2 : inlineToks (.flt q :: rest') i =
        .atom (_format_float q) :: inlineToks rest' i := by
      rw [inlineToks]
    rw [h1, h2]
    cases hxs : inlineStrs rest' i with
    | nil =>
      rw [joinSpace]
      rw [flt_piece q hd rest out]
      rw [inlineToks_nil hxs]
    | cons x xs =>
      rw [joinSpace]
      simp only [List.append_assoc, List.cons_append]
      rw [flt_piece q (show isDelim ' ' = true by decide)]
      rw [ws_step (by decide)]
      rw [← hxs]
      rw [tokRun_inline rest' i d hd hw' rest]
      simp [List.append_assoc]
  | .int n :: rest', i, d, hd, hw, rest, out => by
    have hw' : wfItems rest' = true := hw
    have h1 : inlineStrs (.int n :: rest') i = intRepr n :: inlineStrs rest' i := by
      rw [inlineStrs, List.filter_cons]
      simp [isBlockItem, inlineStrs, renderedItem]
    have h2 : inlineToks (.int n :: rest') i =
        .atom (intRepr n) :: inlineToks rest' i := by
      rw [inlineToks]
    rw [h1, h2]
    cases hxs : inlineStrs rest' i with
    | nil =>
      rw [joinSpace]
      rw [int_piece n hd rest out]
      rw [inlineToks_nil hxs]
    | cons x xs =>
      rw [joinSpace]
      simp only [List.append_assoc, List.cons_append]
      rw [int_piece n (show isDelim ' ' = true by decide)]
      rw [ws_step (by decide)]
      rw [← hxs]
      rw [tokRun_inline rest' i d hd hw' rest]
      simp [List.append_assoc]
termination_by structural its _ _ _ _ _ _ => its

theorem tokRun_blocks : ∀ (items : List SItem) (i : Nat) (rest : Str) (out : List Tok),
    wfItems items = true →
    tokRun (blockLines (indentStr (i + 1)) (blockStrs items i) ++ rest) .norm out =
      tokRun rest .norm (out ++ blockToks items i)
  | [], i, rest, out, hw => by
    simp [blockStrs, blockToks, blockLines]
  | .sub e :: rest', i, rest, out, hw => by
    have hw2 : wfTree e = true ∧ wfItems rest' = true := by
      rw [wfItems, Bool.and_eq_true] at hw
      exact hw
    cases hb : isBlockItem (.sub e) (i + 1) with
    | true =>
      have h1 : blockStrs (.sub e :: rest') i =
          render e (i + 1) :: blockStrs rest' i := by
        rw [blockStrs, List.filter_cons, hb]
        simp [blockStrs, renderedItem]
      have h2 : blockToks (.sub e :: rest') i =
          toks e (i + 1) ++ blockToks rest' i := by
        rw [blockToks, hb]
        simp
      rw [h1, h2, blockLines]
      simp only [List.append_assoc, List.cons_append]
      rw [tokRun_ws (indentStr_ws (i + 1))]
      rw [tokRun_render e (i + 1) _ out hw2.1]
      rw [ws_step (by decide)]
      rw [tokRun_blocks rest' i rest _ hw2.2]
      simp [List.append_assoc]
    | false =>
      have h1 : blockStrs (.sub e :: rest') i = blockStrs rest' i := by
        rw [blockStrs, List.filter_cons, hb]
        simp [blockStrs]
      have h2 : blockToks (.sub e :: rest') i = blockToks rest' i := by
        rw [blockToks, hb]
        simp
      rw [h1, h2]
      exact tokRun_blocks rest' i rest out hw2.2
  | .str s :: rest', i, rest, out, hw => by
    obtain ⟨_, hw'⟩ := wfItems_str hw
    have h1 : blockStrs (.str s :: rest') i = blockStrs rest' i := by
      rw [blockStrs, List.filter_cons]
      simp [isBlockItem, blockStrs]
    have h2 : blockToks (.str s :: rest') i = blockToks rest' i := by
      rw [blockToks]
    rw [h1, h2]
    exact tokRun_blocks rest' i rest out hw'
  | .flt q :: rest', i, rest, out, hw => by
    have hw' : wfItems rest' = true := hw
    have h1 : blockStrs (.flt q :: rest') i = blockStrs rest' i := by
      rw [blockStrs, List.filter_cons]
      simp [isBlockItem, blockStrs]
    have h2 : blockToks (.flt q :: rest') i = blockToks rest' i := by
      rw [blockToks]
    rw [h1, h2]
    exact tokRun_blocks rest' i rest out hw'
  | .int n :: rest', i, rest, out, hw => by
    have hw' : wfItems rest' = true := hw
    have h1 : blockStrs (.int n :: rest') i = blockStrs rest' i := by
      rw [blockStrs, List.filter_cons]
      simp [isBlockItem, blockStrs]
    have h2 : blockToks (.int n :: rest') i = blockToks rest' i := by
      rw [blockToks]
    rw [h1, h2]
    exact tokRun_blocks rest' i rest out hw'
termination_by structural its _ _ _ _ => its
end

/-! ## Claim C4 — the reader reconstructs `strip` from the token stream -/

theorem runToks_cons (t : Tok) (ts : List Tok) (st st' : List Frame)
    (h : stepTok st t = some st') : runToks (t :: ts) st = runToks ts st' := by
  rw [runToks, h]

theorem runToks_append (a b : List Tok) :
    ∀ st : List Frame,
      runToks (a ++ b) st = (runToks a st).bind (fun st' => runToks b st') := by
  induction a with
  | nil => intro st; rfl
  | cons t ts ih =>
    intro st
    rw [List.cons_append, runToks, runToks]
    cases stepTok st t with
    | some st' => exact ih st'
    | none => rfl

mutual
theorem runToks_toks : ∀ (e : SExpr) (i : Nat) (nm : Option Str) (acc : List SItem)
    (stk : List Frame),
    runToks (toks e i) ((nm, acc) :: stk) =
      some ((nm, acc ++ [.sub (strip e i)]) :: stk)
  | .mk name items, i, nm, acc, stk => by
    rw [toks]
    simp only [List.cons_append, List.append_assoc]
    show runToks (inlineToks items i ++ (blockToks items i ++ [Tok.r]))
        ((some name, []) :: (nm, acc) :: stk) = _
    rw [runToks_append]
    rw [runToks_inline items i name]
    rw [Option.some_bind]
    simp only [List.nil_append]
    rw [runToks_append]
    rw [runToks_blocks items i name]
    rw [Option.some_bind]
    show some ((nm, acc ++ [SItem.sub (SExpr.mk name
        ((stripPartition items i).1 ++ (stripPartition items i).2))]) :: stk) = _
    simp [strip]
termination_by structural e _ _ _ _ => e

theorem runToks_inline : ∀ (items : List SItem) (i : Nat) (n : Str)
    (acc : List SItem) (stk : List Frame),
    runToks (inlineToks items i) ((some n, acc) :: stk) =
      some ((some n, acc ++ (stripPartition items i).1) :: stk)
  | [], i, n, acc, stk => by
    simp [inlineToks, stripPartition, runToks]
  | .sub e :: rest', i, n, acc, stk => by
    cases hb : isBlockItem (.sub e) (i + 1) with
    | true =>
      have h2 : inlineToks (.sub e :: rest') i = inlineToks rest' i := by
        rw [inlineToks, hb, if_pos rfl, List.nil_append]
      have h3 : (stripPartition (.sub e :: rest') i).1 =
          (stripPartition rest' i).1 := by
        rw [stripPartition, hb, if_pos rfl]
      rw [h2, h3]
      exact runToks_inline rest' i n acc stk
    | false =>
      have h2 : inlineToks (.sub e :: rest') i =
          toks e (i + 1) ++ inlineToks rest' i := by
        rw [inlineToks, hb]
        simp
      have h3 : (stripPartition (.sub e :: rest') i).1 =
          .sub (strip e (i + 1)) :: (stripPartition rest' i).1 := by
        rw [stripPartition, hb]
        simp
      rw [h2, h3, runToks_append]
      rw [runToks_toks e (i + 1) (some n) acc stk]
      rw [Option.some_bind]
      rw [runToks_inline rest' i n]
      simp [List.append_assoc]
  | .str s :: rest', i, n, acc, stk => by
    have h2 : inlineToks (.str s :: rest') i = .atom s :: inlineToks rest' i := by
      rw [inlineToks]
    have h3 : (stripPartition (.str s :: rest') i).1 =
        .str s :: (stripPartition rest' i).1 := by
      rw [stripPartition]
    rw [h2, h3]
    show runToks (inlineToks rest' i) ((some n, acc ++ [SItem.str s]) :: stk) = _
    rw [runToks_inline rest' i n]
    simp [List.append_assoc]
  | .flt q :: rest', i, n, acc, stk => by
    have h2 : inlineToks (.flt q :: rest') i =
        .atom (_format_float q) :: inlineToks rest' i := by
      rw [inlineToks]
    have h3 : (stripPartition (.flt q :: rest') i).1 =
        .str (_format_float q) :: (stripPartition rest' i).1 := by
      rw [stripPartition]
    rw [h2, h3]
    show runToks (inlineToks rest' i)
        ((some n, acc ++ [SItem.str (_format_float q)]) :: stk) = _
    rw [runToks_inline rest' i n]
    simp [List.append_assoc]
  | .int m :: rest', i, n, acc, stk => by
    have h2 : inlineToks (.int m :: rest') i =
        .atom (intRepr m) :: inlineToks rest' i := by
      rw [inlineToks]
    have h3 : (stripPartition (.int m :: rest') i).1 =
        .str (intRepr m) :: (stripPartition rest' i).1 := by
      rw [stripPartition]
    rw [h2, h3]
    show runToks (inlineToks rest' i)
        ((some n, acc ++ [SItem.str (intRepr m)]) :: stk) = _
    rw [runToks_inline rest' i n]
    simp [List.append_assoc]
termination_by structural its _ _ _ _ => its

theorem runToks_blocks : ∀ (items : List SItem) (i : Nat) (n : Str)
    (acc : List SItem) (stk : List Frame),
    runToks (blockToks items i) ((some n, acc) :: stk) =
      some ((some n, acc ++ (stripPartition items i).2) :: stk)
  | [], i, n, acc, stk => by
    simp [blockToks, stripPartition, runToks]
  | .sub e :: rest', i, n, acc, stk => by
    cases hb : isBlockItem (.sub e) (i + 1) with
    | true =>
      have h2 : blockToks (.sub e :: rest') i =
          toks e (i + 1) ++ blockToks rest' i := by
        rw [blockToks, hb]
        simp
      have h3 : (stripPartition (.sub e :: rest') i).2 =
          .sub (strip e (i + 1)) :: (stripPartition rest' i).2 := by
        rw [stripPartition, hb]
        simp
      rw [h2, h3, runToks_append]
      rw [runToks_toks e (i + 1) (some n) acc stk]
      rw [Option.some_bind]
      rw [runToks_blocks rest' i n]
      simp [List.append_assoc]
    | false =>
      have h2 : blockToks (.sub e :: rest') i = blockToks rest' i := by
        rw [blockToks, hb]
        simp
      have h3 : (stripPartition (.sub e :: rest') i).2 =
          (stripPartition rest' i).2 := by
        rw [stripPartition, hb]
        simp
      rw [h2, h3]
      exact runToks_blocks rest' i n acc stk
  | .str s :: rest', i, n, acc, stk => by
    have h2 : blockToks (.str s :: rest') i = blockToks rest' i := by
      rw [blockToks]
    have h3 : (stripPartition (.str s :: rest') i).2 =
        (stripPartition rest' i).2 := by
      rw [stripPartition]
    rw [h2, h3]
    exact runToks_blocks rest' i n acc stk
  | .flt q :: rest', i, n, acc, stk => by
    have h2 : blockToks (.flt q :: rest') i = blockToks rest' i := by
      rw [blockToks]
    have h3 : (stripPartition (.flt q :: rest') i).2 =
        (stripPartition rest' i).2 := by
      rw [stripPartition]
    rw [h2, h3]
    exact runToks_blocks rest' i n acc stk
  | .int m :: rest', i, n, acc, stk => by
    have h2 : blockToks (.int m :: rest') i = blockToks rest' i := by
      rw [blockToks]
    have h3 : (stripPartition (.int m :: rest') i).2 =
        (stripPartition rest' i).2 := by
      rw [stripPartition]
    rw [h2, h3]
    exact runToks_blocks rest' i n acc stk
termination_by structural its _ _ _ _ => its
end

/-! ## Claim C4 — the round trip -/

/-- C4 (amended): for every tree whose node names are nonempty bare tokens
(no whitespace, parentheses, or quote characters) and whose string scalars
contain no quote character, re-parsing the text produced by `render`
reconstructs the tree up to scalar formatting (scalars come back as their
formatted atom strings) and up to the emitter's inline-before-block
reordering of each node's items — that is, exactly `strip`. -/
theorem c4_round_trip (e : SExpr) (h : wfTree e = true) :
    parseTop (render e 0) = some (strip e 0) := by
  have ht : tokRun (render e 0) .norm [] = some (toks e 0) := by
    have h2 := tokRun_render e 0 [] [] h
    rw [List.append_nil] at h2
    rw [h2]
    show some ([] ++ toks e 0) = _
    rw [List.nil_append]
  have hr := runToks_toks e 0 none [] []
  rw [List.nil_append] at hr
  simp only [parseTop, ht, hr]

/-- A wide node (forty short scalars) whose rendering exceeds 80 characters,
used as a block child below. -/
def wideChild : SExpr := .mk "b".data (List.replicate 30 (.str "cc".data))

set_option maxRecDepth 8000 in
/-- C4 (counterexample): two failures of the claim as stated.  First, a
string scalar containing a quote character is emitted unescaped, so
re-parsing the rendered text fails outright (no tree is reconstructed).
Second, for a node whose block child was inserted *before* a scalar, the
re-parsed tree has the two items in the opposite (emitted) order, so the
reconstruction does not match the original tree's nesting order. -/
theorem c4_counterexample :
    parseTop (render (.mk "a".data [.str ['x', '"', 'y']]) 0) = none ∧
    parseTop (render (.mk "n".data [.sub wideChild, .int 1]) 0) =
      some (.mk "n".data [.str "1".data, .sub wideChild]) ∧
    (SExpr.mk "n".data [.sub wideChild, .int 1]).items.head? =
      some (.sub wideChild) :=
  ⟨rfl, rfl, rfl⟩

set_option maxRecDepth 8000 in
/-- C4 (witness): the round trip at a concrete tree containing a string
scalar, an int scalar, a float scalar, and a block child inserted before a
scalar (so the reordering is exercised). -/
theorem c4_witness :
    wfTree (.mk "sym".data [.sub wideChild, .str "ab".data, .int 7]) = true ∧
    parseTop (render (.mk "sym".data [.sub wideChild, .str "ab".data, .int 7]) 0) =
      some (strip (.mk "sym".data [.sub wideChild, .str "ab".data, .int 7]) 0) :=
  ⟨by decide, c4_round_trip _ (by decide)⟩

end JLC
